import Mathlib

/-!
Verification development for the dependency-version resolution and
peer-compatibility engine of the angular-upgrade-mcp repository.

The embedding translates the engine's source files:
  * `src/tools/scaffold_project.ts` — `isAngularPackage`, `computeTargetVersion`,
    `enforcePeerCompatibility`, `pushSet` and the plan-building core of
    `scaffoldProject` (`buildPlan` below; the filesystem / CLI-process parts of
    `scaffoldProject` are external I/O and are not part of the plan logic),
  * `src/utils/npm.ts` — `getLatestVersion` (with its module-level cache) and
    `getPeerDeps`, with registry I/O (`npm view`) abstracted as an oracle and
    the issued queries recorded in an explicit log.

The `semver` npm library used by the code is an external dependency; the
fragment of it the code exercises (exact versions, caret ranges, `>=` ranges,
`validRange`, `intersects` with `includePrerelease`, `satisfies`, `coerce`)
is modelled below from the library's documented semantics.  Pre-release
identifiers are modelled as numeric lists; alphanumeric identifiers only
affect the relative order of two pre-releases of the same version triple,
which no checked property depends on.

JavaScript object maps are modelled as insertion-ordered association lists
(`Object.entries` / spread `{...a, ...b}` follow insertion order, later
spreads overriding values in place).
-/

/-! ## Semantic versions (model of the node-semver version type) -/

/-- Pre-release identifier (numeric model, see header). -/
abbrev Ident := Nat

/-- A semantic version: `major.minor.patch` with an optional pre-release
identifier list (`[]` means a release version, which orders above every
pre-release of the same triple). -/
structure Ver where
  major : Nat
  minor : Nat
  patch : Nat
  pre : List Ident
deriving DecidableEq

/-- Strict lexicographic order on pre-release identifier lists: identifiers
compare numerically, a shorter list precedes any extension of it. -/
def idsLt : List Nat → List Nat → Bool
  | [], [] => false
  | [], _ :: _ => true
  | _ :: _, [] => false
  | a :: as, b :: bs => a < b || (a == b && idsLt as bs)

/-- Pre-release comparison at one version triple: a release (`[]`) is above
every pre-release; two pre-releases compare by `idsLt`. -/
def preLt (xs ys : List Nat) : Bool :=
  match xs, ys with
  | [], _ => false
  | _ :: _, [] => true
  | _ :: _, _ :: _ => idsLt xs ys

/-- Bounded strict order interface used to assemble the version order. -/
structure IsSLO {γ : Type} (lt : γ → γ → Bool) : Prop where
  irrefl : ∀ a, lt a a = false
  trans : ∀ a b c, lt a b = true → lt b c = true → lt a c = true
  connex : ∀ a b, lt a b = false → lt b a = false → a = b

/-- Lexicographic combination of two boolean strict orders. -/
def lexB {α β : Type} [DecidableEq α] (ltA : α → α → Bool) (ltB : β → β → Bool)
    (p q : α × β) : Bool :=
  ltA p.1 q.1 || (p.1 == q.1 && ltB p.2 q.2)

/-- Strict order on `Nat`, as a boolean. -/
def natLt (a b : Nat) : Bool := a < b

theorem natLt_islo : IsSLO natLt := by
  refine ⟨?_, ?_, ?_⟩ <;> intros <;> simp_all [natLt] <;> omega

theorem idsLt_irrefl : ∀ a, idsLt a a = false := by
  intro a
  induction a with
  | nil => rfl
  | cons x xs ih => simp [idsLt, ih]

theorem idsLt_trans : ∀ a b c, idsLt a b = true → idsLt b c = true → idsLt a c = true := by
  intro a
  induction a with
  | nil =>
    intro b c hab hbc
    cases b with
    | nil => simp [idsLt] at hab
    | cons y ys =>
      cases c with
      | nil => simp [idsLt] at hbc
      | cons z zs => simp [idsLt]
  | cons x xs ih =>
    intro b c hab hbc
    cases b with
    | nil => simp [idsLt] at hab
    | cons y ys =>
      cases c with
      | nil => simp [idsLt] at hbc
      | cons z zs =>
        simp only [idsLt, Bool.or_eq_true, Bool.and_eq_true, decide_eq_true_eq,
          beq_iff_eq] at hab hbc ⊢
        rcases hab with h1 | ⟨e1, h1⟩ <;> rcases hbc with h2 | ⟨e2, h2⟩
        · exact Or.inl (by omega)
        · exact Or.inl (by omega)
        · exact Or.inl (by omega)
        · exact Or.inr ⟨by omega, ih ys zs h1 h2⟩

theorem idsLt_connex : ∀ a b, idsLt a b = false → idsLt b a = false → a = b := by
  intro a
  induction a with
  | nil =>
    intro b hab _
    cases b with
    | nil => rfl
    | cons y ys => simp [idsLt] at hab
  | cons x xs ih =>
    intro b hab hba
    cases b with
    | nil => simp [idsLt] at hba
    | cons y ys =>
      simp only [idsLt, Bool.or_eq_false_iff, Bool.and_eq_false_iff,
        decide_eq_false_iff_not, beq_eq_false_iff_ne, ne_eq] at hab hba
      obtain ⟨hxy, hab2⟩ := hab
      obtain ⟨hyx, hba2⟩ := hba
      have exy : x = y := by omega
      subst exy
      rcases hab2 with h | h
      · exact absurd rfl h
      · rcases hba2 with h' | h'
        · exact absurd rfl h'
        · rw [ih ys h h']

theorem idsLt_islo : IsSLO idsLt := ⟨idsLt_irrefl, idsLt_trans, idsLt_connex⟩

theorem preLt_islo : IsSLO preLt := by
  refine ⟨?_, ?_, ?_⟩
  · intro a
    cases a with
    | nil => rfl
    | cons x xs => simp [preLt, idsLt_irrefl]
  · intro a b c hab hbc
    cases a with
    | nil => simp [preLt] at hab
    | cons x xs =>
      cases b with
      | nil => simp [preLt] at hbc
      | cons y ys =>
        cases c with
        | nil => rfl
        | cons z zs =>
          simpa [preLt] using idsLt_trans _ _ _ (by simpa [preLt] using hab)
            (by simpa [preLt] using hbc)
  · intro a b hab hba
    cases a with
    | nil =>
      cases b with
      | nil => rfl
      | cons y ys => simp [preLt] at hba
    | cons x xs =>
      cases b with
      | nil => simp [preLt] at hab
      | cons y ys =>
        exact idsLt_connex _ _ (by simpa [preLt] using hab) (by simpa [preLt] using hba)

theorem lexB_islo {α β : Type} [DecidableEq α] {ltA : α → α → Bool} {ltB : β → β → Bool}
    (hA : IsSLO ltA) (hB : IsSLO ltB) : IsSLO (lexB ltA ltB) := by
  refine ⟨?_, ?_, ?_⟩
  · intro a
    simp [lexB, hA.irrefl, hB.irrefl]
  · rintro ⟨a1, a2⟩ ⟨b1, b2⟩ ⟨c1, c2⟩ hab hbc
    simp only [lexB, Bool.or_eq_true, Bool.and_eq_true, beq_iff_eq] at hab hbc ⊢
    rcases hab with h1 | ⟨e1, h1⟩ <;> rcases hbc with h2 | ⟨e2, h2⟩
    · exact Or.inl (hA.trans _ _ _ h1 h2)
    · exact Or.inl (e2 ▸ h1)
    · exact Or.inl (e1 ▸ h2)
    · exact Or.inr ⟨e1.trans e2, hB.trans _ _ _ h1 h2⟩
  · rintro ⟨a1, a2⟩ ⟨b1, b2⟩ hab hba
    simp only [lexB, Bool.or_eq_false_iff, Bool.and_eq_false_iff,
      beq_eq_false_iff_ne, ne_eq] at hab hba
    obtain ⟨h1, h2⟩ := hab
    obtain ⟨h3, h4⟩ := hba
    have e1 : a1 = b1 := hA.connex _ _ h1 h3
    subst e1
    rcases h2 with h | h
    · exact absurd rfl h
    · rcases h4 with h' | h'
      · exact absurd rfl h'
      · rw [hB.connex _ _ h h']

/-- Flatten a version into the nested pair its order is defined on. -/
def Ver.key (v : Ver) : Nat × (Nat × (Nat × List Nat)) :=
  (v.major, v.minor, v.patch, v.pre)

/-- Strict version order: lexicographic on `(major, minor, patch)`, then
`preLt` on the pre-release lists. -/
def verLt (x y : Ver) : Bool :=
  lexB natLt (lexB natLt (lexB natLt preLt)) x.key y.key

/-- Non-strict version order. -/
def verLe (x y : Ver) : Bool := !(verLt y x)

theorem verLt_islo_key : IsSLO (lexB natLt (lexB natLt (lexB natLt preLt))) :=
  lexB_islo natLt_islo (lexB_islo natLt_islo (lexB_islo natLt_islo preLt_islo))

theorem verLt_irrefl (x : Ver) : verLt x x = false := verLt_islo_key.irrefl _

theorem verLt_trans {x y z : Ver} (h1 : verLt x y = true) (h2 : verLt y z = true) :
    verLt x z = true := verLt_islo_key.trans _ _ _ h1 h2

theorem verLt_connex {x y : Ver} (h1 : verLt x y = false) (h2 : verLt y x = false) :
    x = y := by
  have hk : x.key = y.key := verLt_islo_key.connex _ _ h1 h2
  cases x; cases y
  simpa [Ver.key, Prod.ext_iff] using hk

theorem verLt_asymm {x y : Ver} (h : verLt x y = true) : verLt y x = false := by
  by_contra hc
  have h2 : verLt y x = true := by
    cases hval : verLt y x
    · exact absurd hval hc
    · rfl
  have := verLt_trans h h2
  rw [verLt_irrefl] at this
  exact Bool.false_ne_true this

theorem verLe_refl (x : Ver) : verLe x x = true := by
  simp [verLe, verLt_irrefl]

theorem verLe_of_verLt {x y : Ver} (h : verLt x y = true) : verLe x y = true := by
  simp [verLe, verLt_asymm h]

theorem verLt_of_verLe_of_verLt {x y z : Ver} (h1 : verLe x y = true)
    (h2 : verLt y z = true) : verLt x z = true := by
  simp only [verLe, Bool.not_eq_true'] at h1
  cases hxy : verLt x y
  · have exy : x = y := verLt_connex hxy h1
    exact exy ▸ h2
  · exact verLt_trans hxy h2

theorem verLt_of_verLt_of_verLe {x y z : Ver} (h1 : verLt x y = true)
    (h2 : verLe y z = true) : verLt x z = true := by
  simp only [verLe, Bool.not_eq_true'] at h2
  cases hyz : verLt y z
  · have eyz : y = z := verLt_connex hyz h2
    exact eyz ▸ h1
  · exact verLt_trans h1 hyz

theorem verLe_trans {x y z : Ver} (h1 : verLe x y = true) (h2 : verLe y z = true) :
    verLe x z = true := by
  simp only [verLe, Bool.not_eq_true'] at h2 ⊢
  cases hzx : verLt z x
  · rfl
  · have hzy : verLt z y = true := verLt_of_verLt_of_verLe hzx h1
    rw [hzy] at h2
    exact h2

theorem verLe_total (x y : Ver) : verLe x y = true ∨ verLe y x = true := by
  cases h : verLt y x
  · exact Or.inl (by simp [verLe, h])
  · exact Or.inr (verLe_of_verLt h)

/-! ## Version specs (model of the node-semver range fragment the code uses) -/

/-- A version spec as stored in a manifest: an exact version, a caret range
`^a.b.c`, a `>=a.b.c` range, or an arbitrary string that is not a valid
semver range (e.g. `latest`, a URL). -/
inductive VSpec
  | exact (v : Ver)
  | caret (v : Ver)
  | gte (v : Ver)
  | raw (s : String)
deriving DecidableEq

/-- Model of `semver.validRange`: the structured fragments are valid ranges
(an exact version string is itself a valid range), `raw` strings are not. -/
def isValidRange : VSpec → Bool
  | .raw _ => false
  | _ => true

/-- Exclusive upper bound of a caret range: node-semver desugars `^a.b.c` to
`>=a.b.c <U` where `U` is the next breaking version with pre-release `-0`
(`<2.0.0-0` for `^1.2.3`, `<0.3.0-0` for `^0.2.3`, `<0.0.4-0` for `^0.0.3`). -/
def caretCeil (v : Ver) : Ver :=
  if v.major ≠ 0 then ⟨v.major + 1, 0, 0, [0]⟩
  else if v.minor ≠ 0 then ⟨0, v.minor + 1, 0, [0]⟩
  else ⟨0, 0, v.patch + 1, [0]⟩

/-- Membership of a version in the set denoted by a spec, with pre-release
versions admitted (the `includePrerelease` semantics the code passes to
`semver.intersects`). -/
def memIncPre : VSpec → Ver → Bool
  | .exact w, v => v = w
  | .caret w, v => verLe w v && verLt v (caretCeil w)
  | .gte w, v => verLe w v
  | .raw _, _ => false

/-- Model of `semver.intersects(a, b, { includePrerelease: true })` on the
fragment: emptiness test of the intersection of the two denoted intervals
(`intersects_iff_exists` below proves this agrees with the semantic
definition).  Only called on valid ranges by `compatTest`. -/
def intersects : VSpec → VSpec → Bool
  | .raw _, _ => false
  | _, .raw _ => false
  | .exact v, b => memIncPre b v
  | a, .exact w => memIncPre a w
  | .caret v, .caret w => verLt v (caretCeil w) && verLt w (caretCeil v)
  | .caret v, .gte w => verLt w (caretCeil v)
  | .gte v, .caret w => verLt v (caretCeil w)
  | .gte _, .gte _ => true

/-- Does a range carry a pre-release comparator at the triple of `v`?  This is
node-semver's gate for letting a pre-release version satisfy a range without
`includePrerelease`. -/
def rangeHasPreAt : VSpec → Ver → Bool
  | .exact w, v | .caret w, v | .gte w, v =>
    !w.pre.isEmpty && w.major == v.major && w.minor == v.minor && w.patch == v.patch
  | .raw _, _ => false

/-- Model of `semver.satisfies(v, range)` (default options): membership, with
a pre-release version admitted only when the range declares a pre-release at
the same triple. -/
def satisfiesRange (v : Ver) (r : VSpec) : Bool :=
  memIncPre r v && (v.pre.isEmpty || rangeHasPreAt r v)

/-- Numeric value of a digit run. -/
def digitsVal (cs : List Char) : Nat :=
  cs.foldl (fun n c => n * 10 + (c.toNat - 48)) 0

/-- Scan of `semver.coerce` over a raw string: find the first digit run and
read up to three dot-separated numeric components (model of the documented
behaviour on the inputs the code can see; pre-release parts are dropped, as
`coerce` does by default). -/
def rawCoerce : List Char → Option Ver
  | [] => none
  | c :: cs =>
    if c.isDigit then
      let majD := (c :: cs).takeWhile Char.isDigit
      let rest1 := (c :: cs).dropWhile Char.isDigit
      match rest1 with
      | '.' :: r1 =>
        let minD := r1.takeWhile Char.isDigit
        if minD.isEmpty then some ⟨digitsVal majD, 0, 0, []⟩
        else
          let rest2 := r1.dropWhile Char.isDigit
          match rest2 with
          | '.' :: r2 =>
            let patD := r2.takeWhile Char.isDigit
            if patD.isEmpty then some ⟨digitsVal majD, digitsVal minD, 0, []⟩
            else some ⟨digitsVal majD, digitsVal minD, digitsVal patD, []⟩
          | _ => some ⟨digitsVal majD, digitsVal minD, 0, []⟩
      | _ => some ⟨digitsVal majD, 0, 0, []⟩
    else rawCoerce cs

/-- Model of `semver.coerce` on a spec: structured specs coerce to their
version with the pre-release stripped; raw strings are scanned. -/
def coerceSpec : VSpec → Option Ver
  | .exact v | .caret v | .gte v => some ⟨v.major, v.minor, v.patch, []⟩
  | .raw s => rawCoerce s.toList

/-- The compatibility test of `enforcePeerCompatibility`
(`scaffold_project.ts` lines 128–139): if both the held spec and the peer
range are valid ranges, `semver.intersects` with `includePrerelease`;
otherwise coerce the held spec and test `semver.satisfies` against the peer
range. -/
def compatTest (haveSpec need : VSpec) : Bool :=
  let haveRange := isValidRange haveSpec
  let needRange := isValidRange need
  if haveRange && needRange then intersects haveSpec need
  else
    match coerceSpec haveSpec with
    | some hv => needRange && satisfiesRange hv need
    | none => false

theorem verLt_caretCeil_self (v : Ver) : verLt v (caretCeil v) = true := by
  unfold caretCeil
  split
  · simp only [verLt, Ver.key, lexB, natLt, Bool.or_eq_true, decide_eq_true_eq]
    exact Or.inl (by omega)
  · rename_i h0
    split
    · simp only [verLt, Ver.key, lexB, natLt, Bool.or_eq_true, Bool.and_eq_true,
        decide_eq_true_eq, beq_iff_eq]
      exact Or.inr ⟨by omega, Or.inl (by omega)⟩
    · rename_i h1
      simp only [verLt, Ver.key, lexB, natLt, Bool.or_eq_true, Bool.and_eq_true,
        decide_eq_true_eq, beq_iff_eq]
      exact Or.inr ⟨by omega, Or.inr ⟨by omega, Or.inl (by omega)⟩⟩

/-- Larger of two versions. -/
def vmax (a b : Ver) : Ver := if verLe a b then b else a

theorem verLe_left_vmax (a b : Ver) : verLe a (vmax a b) = true := by
  unfold vmax
  split
  · assumption
  · exact verLe_refl a

theorem verLe_right_vmax (a b : Ver) : verLe b (vmax a b) = true := by
  unfold vmax
  split
  · exact verLe_refl b
  · rename_i h
    cases hb : verLt b a
    · have : a = b := verLt_connex (by simpa [verLe, hb] using h) hb
      exact this ▸ verLe_refl b
    · exact verLe_of_verLt hb

theorem vmax_eq_or (a b : Ver) : vmax a b = a ∨ vmax a b = b := by
  unfold vmax
  split
  · exact Or.inr rfl
  · exact Or.inl rfl

/-- Correctness of the modelled `intersects` on valid ranges: it is the
emptiness test of the intersection of the denoted version sets. -/
theorem intersects_iff_exists (a b : VSpec) (ha : isValidRange a = true)
    (hb : isValidRange b = true) :
    intersects a b = true ↔ ∃ u, memIncPre a u = true ∧ memIncPre b u = true := by
  cases a with
  | raw s => simp [isValidRange] at ha
  | exact v =>
    cases b with
    | raw s => simp [isValidRange] at hb
    | exact w =>
      constructor
      · intro h
        exact ⟨v, by simp [memIncPre], by simpa [intersects] using h⟩
      · rintro ⟨u, h1, h2⟩
        simp only [memIncPre, decide_eq_true_eq] at h1
        subst h1
        simpa [intersects] using h2
    | caret w =>
      constructor
      · intro h
        exact ⟨v, by simp [memIncPre], by simpa [intersects] using h⟩
      · rintro ⟨u, h1, h2⟩
        simp only [memIncPre, decide_eq_true_eq] at h1
        subst h1
        simpa [intersects] using h2
    | gte w =>
      constructor
      · intro h
        exact ⟨v, by simp [memIncPre], by simpa [intersects] using h⟩
      · rintro ⟨u, h1, h2⟩
        simp only [memIncPre, decide_eq_true_eq] at h1
        subst h1
        simpa [intersects] using h2
  | caret v =>
    cases b with
    | raw s => simp [isValidRange] at hb
    | exact w =>
      constructor
      · intro h
        exact ⟨w, by simpa [intersects] using h, by simp [memIncPre]⟩
      · rintro ⟨u, h1, h2⟩
        simp only [memIncPre, decide_eq_true_eq] at h2
        subst h2
        simpa [intersects] using h1
    | caret w =>
      simp only [intersects, Bool.and_eq_true, memIncPre]
      constructor
      · rintro ⟨h1, h2⟩
        refine ⟨vmax v w, ⟨verLe_left_vmax v w, ?_⟩, verLe_right_vmax v w, ?_⟩
        · rcases vmax_eq_or v w with e | e <;> rw [e]
          · exact verLt_caretCeil_self v
          · exact h2
        · rcases vmax_eq_or v w with e | e <;> rw [e]
          · exact h1
          · exact verLt_caretCeil_self w
      · rintro ⟨u, ⟨hv1, hv2⟩, hw1, hw2⟩
        exact ⟨verLt_of_verLe_of_verLt hv1 hw2, verLt_of_verLe_of_verLt hw1 hv2⟩
    | gte w =>
      simp only [intersects, Bool.and_eq_true, memIncPre]
      constructor
      · intro h
        refine ⟨vmax v w, ⟨verLe_left_vmax v w, ?_⟩, verLe_right_vmax v w⟩
        rcases vmax_eq_or v w with e | e <;> rw [e]
        · exact verLt_caretCeil_self v
        · exact h
      · rintro ⟨u, ⟨hv1, hv2⟩, hw1⟩
        exact verLt_of_verLe_of_verLt hw1 hv2
  | gte v =>
    cases b with
    | raw s => simp [isValidRange] at hb
    | exact w =>
      constructor
      · intro h
        exact ⟨w, by simpa [intersects] using h, by simp [memIncPre]⟩
      · rintro ⟨u, h1, h2⟩
        simp only [memIncPre, decide_eq_true_eq] at h2
        subst h2
        simpa [intersects] using h1
    | caret w =>
      simp only [intersects, Bool.and_eq_true, memIncPre]
      constructor
      · intro h
        refine ⟨vmax v w, verLe_left_vmax v w, verLe_right_vmax v w, ?_⟩
        rcases vmax_eq_or v w with e | e <;> rw [e]
        · exact h
        · exact verLt_caretCeil_self w
      · rintro ⟨u, hv1, hw1, hw2⟩
        exact verLt_of_verLe_of_verLt hv1 hw2
    | gte w =>
      simp only [intersects, memIncPre]
      exact ⟨fun _ => ⟨vmax v w, verLe_left_vmax v w, verLe_right_vmax v w⟩, fun _ => trivial⟩

/-! ## Manifest model (insertion-ordered JS object maps) -/

/-- Association-list lookup, first match (JS property read). -/
def lookupKV {α : Type} : List (String × α) → String → Option α
  | [], _ => none
  | (k', v) :: rest, k => if k' == k then some v else lookupKV rest k

/-- Key-presence test (JS `in`). -/
def containsKV {α : Type} (m : List (String × α)) (k : String) : Bool :=
  (lookupKV m k).isSome

/-- Association-list write (JS property assignment): update the existing
entry in place, preserving its position, or append a new entry. -/
def setKV {α : Type} : List (String × α) → String → α → List (String × α)
  | [], k, v => [(k, v)]
  | (k', v') :: rest, k, v =>
    if k' == k then (k, v) :: rest else (k', v') :: setKV rest k v

/-- Keys of a map, in order. -/
def keysOf {α : Type} (m : List (String × α)) : List String := m.map Prod.fst

/-- A `package.json` dependency section: package name to version spec. -/
abbrev PackageMap := List (String × VSpec)

/-- JS object spread `{...a, ...b}`: entries of `b` written over `a` in
order (`b`'s value wins on a shared key, which keeps `a`'s position). -/
def mergeMaps (a b : PackageMap) : PackageMap :=
  b.foldl (fun m kv => setKV m kv.1 kv.2) a

/-! ## Peer-compatibility enforcement (`scaffold_project.ts` 87–156) -/

/-- One record of the `upgraded` array built by `enforcePeerCompatibility`
(the source's `from` and `to` fields are `fromSpec` and `toSpec` here, both
being reserved words in Lean): additions carry `fromSpec = none`. -/
structure Decision where
  name : String
  fromSpec : Option VSpec
  toSpec : VSpec
  reason : String
deriving DecidableEq

/-- Result of `npm view <pkg>@<spec> --json` as consumed by the resolver
(`getPeerDeps`): declared peer ranges and their optionality metadata. -/
structure PeerMeta where
  peerDependencies : List (String × VSpec)
  peerDependenciesMeta : List (String × Bool)
deriving DecidableEq

/-- Registry oracle for the plan-building level: `latest` models the cached
`getLatestVersion` (sound as a pure function because the cache is write-once,
see `c8` theorems), `peers` models `getPeerDeps` (`none` = lookup failure). -/
structure Registry where
  latest : String → Option VSpec
  peers : String → VSpec → Option PeerMeta

/-- Mutable state of `enforcePeerCompatibility`: the two sections being
rewritten plus the accumulated decision records. -/
structure PeerState where
  deps : PackageMap
  devDeps : PackageMap
  upgraded : List Decision
deriving DecidableEq

def reasonAddedPeer (pkg : String) : String := "added missing peer for " ++ pkg

def reasonAlignPeer (pkg : String) : String := "align to peer range of " ++ pkg

/-- The currently selected spec for a peer: `deps[peerName] ?? devDeps[peerName]`. -/
def selectedSpec (st : PeerState) (peerName : String) : Option VSpec :=
  (lookupKV st.deps peerName).orElse fun _ => lookupKV st.devDeps peerName

/-- Body of the inner loop of `enforcePeerCompatibility` (lines 112–152):
handle one peer requirement `(peerName, peerRange)` of requirer `pkg`. -/
def applyPeer (st : PeerState) (pkg peerName : String) (peerRange : VSpec)
    (optional : Bool) : PeerState :=
  match selectedSpec st peerName with
  | none =>
    if !optional then
      { st with
        deps := setKV st.deps peerName peerRange,
        upgraded := st.upgraded ++ [⟨peerName, none, peerRange, reasonAddedPeer pkg⟩] }
    else st
  | some haveSpec =>
    if compatTest haveSpec peerRange then st
    else
      { deps := if containsKV st.deps peerName
          then setKV st.deps peerName peerRange else st.deps,
        devDeps := if containsKV st.deps peerName
          then st.devDeps else setKV st.devDeps peerName peerRange,
        upgraded := st.upgraded ++ [⟨peerName, some haveSpec, peerRange, reasonAlignPeer pkg⟩] }

/-- Optionality flag of a peer: `!!peersMeta[peerName]?.optional`. -/
def optionalOf (meta : PeerMeta) (peerName : String) : Bool :=
  (lookupKV meta.peerDependenciesMeta peerName).getD false

/-- Body of the outer loop (lines 104–153): query one snapshot package and
process its declared peers in order; a failed query (`null`) is skipped. -/
def processPkg (reg : Registry) (st : PeerState) (pkg : String) (spec : VSpec) : PeerState :=
  match reg.peers pkg spec with
  | none => st
  | some meta =>
    meta.peerDependencies.foldl
      (fun s kv => applyPeer s pkg kv.1 kv.2 (optionalOf meta kv.1)) st

/-- `enforcePeerCompatibility(depsIn, devDepsIn)`: one pass over the snapshot
`universe = {...deps, ...devDeps}` taken before any mutation, threading the
mutable deps/devDeps/upgraded state through each peer requirement. -/
def enforcePeerCompatibility (reg : Registry) (depsIn devDepsIn : PackageMap) : PeerState :=
  (mergeMaps depsIn devDepsIn).foldl
    (fun st kv => processPkg reg st kv.1 kv.2)
    ⟨depsIn, devDepsIn, []⟩

/-! ## Version target planning (`scaffold_project.ts` 38–84) -/

inductive UpgradeStrategy
  | angularOnly
  | all
deriving DecidableEq

/-- The option fields of `ScaffoldProjectOptions` that the plan logic reads
(paths and `installDeps` only drive the external I/O steps). -/
structure ScaffoldOptions where
  targetAngularVersion : Option VSpec
  upgradeStrategy : Option UpgradeStrategy
deriving DecidableEq

def ANGULAR_SCOPES : List String := ["@angular/", "@angular-devkit/", "@schematics/angular"]

/-- `startsWith` on the underlying character lists. -/
def startsWithL (p s : String) : Bool := p.toList.isPrefixOf s.toList

/-- `isAngularPackage` (lines 40–46). -/
def isAngularPackage (name : String) : Bool :=
  ANGULAR_SCOPES.any (fun s => startsWithL s name)
    || name == ("zone.js") || name == ("rxjs")

def angularCliName : String := "@angular/cli"

def angularCoreName : String := "@angular/core"

def angularScope : String := "@angular/"

def reasonMatchTarget : String := "match targetAngularVersion"

def reasonAlignCli : String := "align with Angular CLI latest"

def reasonUpgradeAll : String := "upgrade all (latest)"

def reasonKeep : String := "keep (angularOnly strategy)"

/-- `computeTargetVersion(name, from, opts)` (lines 56–84): decide a package's
target version from the strategy; `latest` is the registry's
`getLatestVersion` oracle; the returned `to` is `none` exactly when the code
would return `undefined` (explicit `from = undefined` or a failed lookup). -/
def computeTargetVersion (latest : String → Option VSpec) (name : String)
    (fromSpec : Option VSpec) (opts : ScaffoldOptions) : Option VSpec × String :=
  let upgradeAll : Bool := (opts.upgradeStrategy.getD .angularOnly) == .all
  let targetNg := opts.targetAngularVersion
  if isAngularPackage name then
    if startsWithL angularScope name && targetNg.isSome then
      (targetNg, reasonMatchTarget)
    else if name == angularCliName then
      (latest angularCliName, reasonAlignCli)
    else if upgradeAll then
      (latest name, reasonUpgradeAll)
    else
      (fromSpec, reasonKeep)
  else if upgradeAll then
    (latest name, reasonUpgradeAll)
  else
    (fromSpec, reasonKeep)

/-- `pushSet(src, dst)` (lines 227–232): plan a target for every entry of
`src` and write it into `dst`, silently dropping entries whose computed
target is `undefined`. -/
def pushSet (latest : String → Option VSpec) (opts : ScaffoldOptions)
    (src dst : PackageMap) : PackageMap :=
  src.foldl
    (fun d kv =>
      match (computeTargetVersion latest kv.1 (some kv.2) opts).1 with
      | some t => setKV d kv.1 t
      | none => d)
    dst

/-- The dependency plan assembled by `scaffoldProject` (the `plan` field of
its output, lines 250–254 and 275–282). -/
structure ScaffoldPlan where
  deps : PackageMap
  devDeps : PackageMap
  kept : List (String × VSpec)
  upgraded : List Decision
  skipped : List (String × String)
deriving DecidableEq

/-- The dependency-planning core of `scaffoldProject` (lines 224–254, 275–282):
plan targets for both sections, ensure `@angular/cli` is in devDependencies,
pin `@angular/core` to an explicit target version, run peer enforcement, and
assemble the plan.  The `Object.assign(nextDeps, peerFix.deps)` of the source
yields exactly `peerFix.deps`, since `peerFix.deps` starts as a copy of
`nextDeps` and is only ever written through (never deleted from). -/
def buildPlan (reg : Registry) (opts : ScaffoldOptions)
    (oldDeps oldDevDeps : PackageMap) : ScaffoldPlan :=
  let nextDeps := pushSet reg.latest opts oldDeps []
  let nextDevDeps := pushSet reg.latest opts oldDevDeps []
  let nextDevDeps2 :=
    if containsKV nextDevDeps angularCliName then nextDevDeps
    else
      match reg.latest angularCliName with
      | some cliLatest => setKV nextDevDeps angularCliName cliLatest
      | none => nextDevDeps
  let nextDeps2 :=
    match opts.targetAngularVersion with
    | some t => setKV nextDeps angularCoreName t
    | none => nextDeps
  let peerFix := enforcePeerCompatibility reg nextDeps2 nextDevDeps2
  ⟨peerFix.deps, peerFix.devDeps, [], peerFix.upgraded, []⟩

/-! ## Registry client (`npm.ts`) -/

/-- JS `String.prototype.includes` for a single character. -/
def hasChar (s : String) (c : Char) : Bool := s.toList.contains c

/-- Is `pat` a prefix of `cs`? -/
def listHasPrefix : List Char → List Char → Bool
  | _, [] => true
  | [], _ :: _ => false
  | x :: xs, y :: ys => x == y && listHasPrefix xs ys

/-- Contiguous-substring test on character lists. -/
def listHasSubstr (cs pat : List Char) : Bool :=
  listHasPrefix cs pat ||
    match cs with
    | [] => false
    | _ :: rest => listHasSubstr rest pat

/-- JS `String.prototype.includes` for a substring. -/
def hasSub (s pat : String) : Bool := listHasSubstr s.toList pat.toList

/-- The stable-version filter of `getLatestVersion` (`npm.ts` lines 18–21):
drop any candidate containing a hyphen or one of the markers
`beta`, `alpha`, `rc`. -/
def isStable (v : String) : Bool :=
  !hasChar v '-' && !hasSub v ("beta") && !hasSub v ("alpha") && !hasSub v ("rc")

/-- JS `String.prototype.split('.')` on a character list. -/
def splitDots : List Char → List (List Char)
  | [] => [[]]
  | c :: rest =>
    if c == '.' then [] :: splitDots rest
    else
      match splitDots rest with
      | [] => [[c]]
      | g :: gs => (c :: g) :: gs

/-- JS `Number(part)` for a dot component: `""` is `0`, a digit run is its
value, anything else is `NaN` (`none`). -/
def parseNumPart (cs : List Char) : Option Nat :=
  if cs.isEmpty then some 0
  else if cs.all Char.isDigit then some (digitsVal cs) else none

/-- `v.split('.').map(Number)`, with `NaN` as `none`. -/
def numPartsJS (v : String) : List (Option Nat) :=
  (splitDots v.toList).map parseNumPart

/-- The numeric components used by the sort comparator.  `NaN` components
(impossible for well-formed version strings; `numericOk` tracks this) are
collapsed to `0` — the JS comparator's behaviour is unspecified on them. -/
def numParts (v : String) : List Nat :=
  (numPartsJS v).map (fun o => o.getD 0)

/-- All dot components of `v` parse as numbers (no `NaN` in the comparator). -/
def numericOk (v : String) : Bool :=
  (numPartsJS v).all Option.isSome

/-- The component-wise comparator of `getLatestVersion` (lines 25–33):
first differing component decides, missing components read as `0`. -/
def cmpParts : List Nat → List Nat → Ordering
  | [], bs => if bs.all (fun b => b == 0) then .eq else .lt
  | a :: as, [] => if a == 0 then cmpParts as [] else .gt
  | a :: as, b :: bs =>
    if a < b then .lt else if b < a then .gt else cmpParts as bs

/-- Sort order derived from the comparator (`cmp ≤ 0`). -/
def partsLe (a b : String) : Bool := !(cmpParts (numParts a) (numParts b) == .gt)

/-- Stable insertion into a sorted list. -/
def insertLe {α : Type} (le : α → α → Bool) (x : α) : List α → List α
  | [] => [x]
  | y :: ys => if le x y then x :: y :: ys else y :: insertLe le x ys

/-- Stable insertion sort, modelling `Array.prototype.sort(cmp)`: ECMA-262
guarantees the result is sorted by the (consistent) comparator and that the
sort is stable, which determines it uniquely. -/
def sortLe {α : Type} (le : α → α → Bool) : List α → List α
  | [] => []
  | x :: xs => insertLe le x (sortLe le xs)

/-- The pure core of `getLatestVersion` (lines 16–36): filter out pre-release
candidates, sort the rest ascending by the numeric component comparator, and
take the last; `none` when no stable candidate remains. -/
def selectLatestStable (versions : List String) : Option String :=
  let stableVersions := versions.filter isStable
  if stableVersions.length > 0 then (sortLe partsLe stableVersions).getLast?
  else none

/-- The registry behind `npm.ts` as an oracle: `viewVersions name` is the
parsed output of `npm view <name> versions --json` (`none` for a failed
command or output that is not an array — the code then leaves the result
undefined), `viewPeers name version` is the peer-relevant part of
`npm view <name>@<version> --json` (`none` for a non-zero exit). -/
structure NpmRegistry where
  viewVersions : String → Option (List String)
  viewPeers : String → String → Option PeerMeta

/-- Process state of `npm.ts`: the module-level `latestCache` plus a log of
the registry queries actually issued (one entry per spawned `npm view`). -/
structure NpmState where
  latestCache : List (String × Option String)
  queries : List String
deriving DecidableEq

/-- `getLatestVersion(pkgName)` (lines 5–53): answer from `latestCache` when
the key is present (issuing no query); otherwise query the registry, select
the latest stable version, and store the result (even a failed one) in the
cache. -/
def getLatestVersion (reg : NpmRegistry) (pkgName : String) (st : NpmState) :
    Option String × NpmState :=
  match lookupKV st.latestCache pkgName with
  | some cached => (cached, st)
  | none =>
    let st1 : NpmState := { st with queries := st.queries ++ [pkgName] }
    let ver : Option String :=
      match reg.viewVersions pkgName with
      | some versions => selectLatestStable versions
      | none => none
    (ver, { st1 with latestCache := setKV st1.latestCache pkgName ver })

/-- `getPeerDeps(name, version)` (lines 55–68): always issues a registry
query — there is no cache on this path. -/
def getPeerDeps (reg : NpmRegistry) (name version : String) (st : NpmState) :
    Option PeerMeta × NpmState :=
  let st1 : NpmState := { st with queries := st.queries ++ [name ++ ("@") ++ version] }
  (reg.viewPeers name version, st1)

/-! ## Association-list lemmas -/

theorem lookupKV_setKV {α : Type} (m : List (String × α)) (k : String) (v : α)
    (q : String) :
    lookupKV (setKV m k v) q = if k == q then some v else lookupKV m q := by
  induction m with
  | nil => simp [setKV, lookupKV]
  | cons kv rest ih =>
    obtain ⟨k1, v1⟩ := kv
    by_cases h1 : k1 = k
    · subst h1
      simp only [setKV, beq_self_eq_true, if_true]
      by_cases h2 : k1 = q
      · subst h2
        simp [lookupKV]
      · simp [lookupKV, h2]
    · simp only [setKV, beq_iff_eq, h1, if_false]
      by_cases h2 : k1 = q
      · subst h2
        have hkq : ¬(k = k1) := fun e => h1 e.symm
        simp [lookupKV, beq_iff_eq, hkq]
      · simp [lookupKV, beq_iff_eq, h2, ih]

theorem containsKV_setKV {α : Type} (m : List (String × α)) (k : String) (v : α)
    (q : String) :
    containsKV (setKV m k v) q = ((k == q) || containsKV m q) := by
  unfold containsKV
  rw [lookupKV_setKV]
  by_cases h : k = q <;> simp [h]

theorem keysOf_setKV {α : Type} (m : List (String × α)) (k : String) (v : α) :
    keysOf (setKV m k v)
      = if containsKV m k then keysOf m else keysOf m ++ [k] := by
  induction m with
  | nil => simp [setKV, keysOf, containsKV, lookupKV]
  | cons kv rest ih =>
    obtain ⟨k1, v1⟩ := kv
    by_cases h1 : k1 = k
    · subst h1
      simp [setKV, keysOf, containsKV, lookupKV]
    · simp only [setKV, beq_iff_eq, h1, if_false, keysOf, List.map_cons,
        containsKV, lookupKV]
      simp only [keysOf] at ih
      by_cases h2 : containsKV rest k
      · simp only [containsKV] at h2
        simp [h1, h2, ih, containsKV]
      · simp only [containsKV, Bool.not_eq_true] at h2
        simp only [containsKV] at ih
        simp [h1, h2, ih]

theorem mem_keysOf_of_containsKV {α : Type} (m : List (String × α)) (q : String)
    (h : containsKV m q = true) : q ∈ keysOf m := by
  induction m with
  | nil => simp [containsKV, lookupKV] at h
  | cons kv rest ih =>
    obtain ⟨k1, v1⟩ := kv
    by_cases h1 : k1 = q
    · subst h1
      simp [keysOf]
    · simp only [containsKV, lookupKV, beq_iff_eq, h1, if_false] at h
      exact List.mem_cons_of_mem _ (ih h)

theorem mem_keysOf_setKV {α : Type} (m : List (String × α)) (k : String) (v : α)
    (q : String) :
    q ∈ keysOf (setKV m k v) ↔ q ∈ keysOf m ∨ q = k := by
  rw [keysOf_setKV]
  by_cases h : containsKV m k
  · simp only [h, if_true]
    constructor
    · exact Or.inl
    · rintro (hq | rfl)
      · exact hq
      · exact mem_keysOf_of_containsKV m q h
  · simp [h]

theorem lookupKV_eq_none_of_not_mem {α : Type} (m : List (String × α)) (q : String)
    (h : q ∉ keysOf m) : lookupKV m q = none := by
  induction m with
  | nil => rfl
  | cons kv rest ih =>
    obtain ⟨k1, v1⟩ := kv
    by_cases h1 : k1 = q
    · exact absurd (show q ∈ keysOf ((k1, v1) :: rest) by simp [keysOf, h1]) h
    · simp only [lookupKV, beq_iff_eq, h1, if_false]
      apply ih
      intro hq
      exact h (by simp [keysOf] at hq ⊢; exact Or.inr hq)

theorem mergeMaps_nil (d : PackageMap) : mergeMaps d [] = d := rfl

theorem mergeMaps_cons (d : PackageMap) (kv : String × VSpec) (rest : PackageMap) :
    mergeMaps d (kv :: rest) = mergeMaps (setKV d kv.1 kv.2) rest := rfl

theorem lookupKV_mergeMaps (dd : PackageMap) (d : PackageMap) (q : String)
    (hnd : (keysOf dd).Nodup) :
    lookupKV (mergeMaps d dd) q
      = ((lookupKV dd q).orElse fun _ => lookupKV d q) := by
  induction dd generalizing d with
  | nil => simp [mergeMaps_nil, lookupKV]
  | cons kv rest ih =>
    obtain ⟨k, v⟩ := kv
    simp only [keysOf, List.map_cons, List.nodup_cons] at hnd
    obtain ⟨hk, hrest⟩ := hnd
    rw [mergeMaps_cons, ih _ (by simpa [keysOf] using hrest)]
    by_cases h : k = q
    · subst h
      have : lookupKV rest k = none :=
        lookupKV_eq_none_of_not_mem rest k (by simpa [keysOf] using hk)
      simp [lookupKV, this, lookupKV_setKV]
    · simp only [lookupKV, beq_iff_eq, h, if_false, lookupKV_setKV]

theorem keysOf_mergeMaps (dd : PackageMap) (d : PackageMap)
    (hnd : (keysOf dd).Nodup) :
    keysOf (mergeMaps d dd)
      = keysOf d ++ (keysOf dd).filter (fun k => !containsKV d k) := by
  induction dd generalizing d with
  | nil => simp [mergeMaps_nil, keysOf]
  | cons kv rest ih =>
    obtain ⟨k, v⟩ := kv
    simp only [keysOf, List.map_cons, List.nodup_cons] at hnd
    obtain ⟨hk, hrest⟩ := hnd
    rw [mergeMaps_cons, ih _ (by simpa [keysOf] using hrest)]
    rw [keysOf_setKV]
    by_cases h : containsKV d k
    · simp only [h, if_true, Bool.not_true]
      have hcong : ∀ x ∈ keysOf rest,
          (!containsKV (setKV d k v) x) = (!containsKV d x) := by
        intro x _
        rw [containsKV_setKV]
        by_cases hx : k = x
        · subst hx
          simp [h]
        · simp [hx]
      rw [List.filter_congr hcong]
      simp [keysOf, h]
    · have hcong : ∀ x ∈ keysOf rest,
          (!containsKV (setKV d k v) x) = (!containsKV d x) := by
        intro x hx
        rw [containsKV_setKV]
        have hne : ¬(k = x) := by
          intro he
          exact hk (he ▸ by simpa [keysOf] using hx)
        simp [hne]
      rw [List.filter_congr hcong, if_neg h]
      have hkk : (!containsKV d k) = true := by
        simp only [Bool.not_eq_true']
        exact Bool.not_eq_true _ ▸ (by simpa using h)
      simp [keysOf, List.filter_cons, hkk, List.append_assoc]

/-! ## Peer-enforcement fold lemmas -/

theorem applyPeer_upgraded (st : PeerState) (pkg peerName : String)
    (peerRange : VSpec) (optional : Bool) :
    (applyPeer st pkg peerName peerRange optional).upgraded = st.upgraded
      ∨ ∃ rec, (applyPeer st pkg peerName peerRange optional).upgraded
            = st.upgraded ++ [rec]
          ∧ (rec.reason = reasonAddedPeer pkg ∨ rec.reason = reasonAlignPeer pkg) := by
  unfold applyPeer
  cases selectedSpec st peerName with
  | none =>
    by_cases h : optional
    · simp [h]
    · simp only [h, Bool.not_false, if_true]
      exact Or.inr ⟨_, rfl, Or.inl rfl⟩
  | some haveSpec =>
    by_cases h : compatTest haveSpec peerRange
    · simp [h]
    · simp only [h, if_false]
      exact Or.inr ⟨_, rfl, Or.inr rfl⟩

theorem processPkg_none (reg : Registry) (st : PeerState) (pkg : String)
    (spec : VSpec) (hreg : reg.peers pkg spec = none) :
    processPkg reg st pkg spec = st := by
  unfold processPkg
  rw [hreg]

theorem processPkg_some (reg : Registry) (st : PeerState) (pkg : String)
    (spec : VSpec) (meta : PeerMeta) (hreg : reg.peers pkg spec = some meta) :
    processPkg reg st pkg spec
      = meta.peerDependencies.foldl
          (fun s kv => applyPeer s pkg kv.1 kv.2 (optionalOf meta kv.1)) st := by
  unfold processPkg
  rw [hreg]

theorem applyPeer_fold_upgraded (pkg : String) (optf : String → Bool)
    (l : List (String × VSpec)) (st : PeerState) (rec : Decision)
    (hmem : rec ∈ (l.foldl (fun s kv => applyPeer s pkg kv.1 kv.2 (optf kv.1)) st).upgraded) :
    rec ∈ st.upgraded
      ∨ rec.reason = reasonAddedPeer pkg ∨ rec.reason = reasonAlignPeer pkg := by
  induction l generalizing st with
  | nil => exact Or.inl hmem
  | cons kv rest ih =>
    rw [List.foldl_cons] at hmem
    rcases ih _ hmem with hin | hreason
    · rcases applyPeer_upgraded st pkg kv.1 kv.2 (optf kv.1) with heq | ⟨r, heq, hr⟩
      · exact Or.inl (heq ▸ hin)
      · rw [heq, List.mem_append] at hin
        rcases hin with hin | hin
        · exact Or.inl hin
        · simp only [List.mem_singleton] at hin
          exact Or.inr (hin ▸ hr)
    · exact Or.inr hreason

theorem processPkg_upgraded (reg : Registry) (st : PeerState) (pkg : String)
    (spec : VSpec) (rec : Decision)
    (hmem : rec ∈ (processPkg reg st pkg spec).upgraded) :
    rec ∈ st.upgraded
      ∨ rec.reason = reasonAddedPeer pkg ∨ rec.reason = reasonAlignPeer pkg := by
  cases hreg : reg.peers pkg spec with
  | none =>
    rw [processPkg_none reg st pkg spec hreg] at hmem
    exact Or.inl hmem
  | some meta =>
    rw [processPkg_some reg st pkg spec meta hreg] at hmem
    exact applyPeer_fold_upgraded pkg (optionalOf meta) meta.peerDependencies st rec hmem

theorem enforce_fold_upgraded (reg : Registry) (l : List (String × VSpec))
    (st : PeerState) (rec : Decision)
    (hmem : rec ∈ (l.foldl (fun s kv => processPkg reg s kv.1 kv.2) st).upgraded) :
    rec ∈ st.upgraded
      ∨ ∃ kv, kv ∈ l
          ∧ (rec.reason = reasonAddedPeer kv.1 ∨ rec.reason = reasonAlignPeer kv.1) := by
  induction l generalizing st with
  | nil => exact Or.inl hmem
  | cons kv rest ih =>
    rw [List.foldl_cons] at hmem
    rcases ih _ hmem with hin | ⟨kv', hkv', hr⟩
    · rcases processPkg_upgraded reg st kv.1 kv.2 rec hin with hin' | hr'
      · exact Or.inl hin'
      · exact Or.inr ⟨kv, List.mem_cons_self kv rest, hr'⟩
    · exact Or.inr ⟨kv', List.mem_cons_of_mem _ hkv', hr⟩

theorem enforce_upgraded_from_universe (reg : Registry) (d dd : PackageMap)
    (rec : Decision) (hmem : rec ∈ (enforcePeerCompatibility reg d dd).upgraded) :
    ∃ pkg spec, (pkg, spec) ∈ mergeMaps d dd
      ∧ (rec.reason = reasonAddedPeer pkg ∨ rec.reason = reasonAlignPeer pkg) := by
  unfold enforcePeerCompatibility at hmem
  rcases enforce_fold_upgraded reg (mergeMaps d dd) ⟨d, dd, []⟩ rec hmem with hin | ⟨kv, hkv, hr⟩
  · simp at hin
  · exact ⟨kv.1, kv.2, hkv, hr⟩

/-! ## Target-planning fold lemmas -/

theorem pushSet_cons (latest : String → Option VSpec) (opts : ScaffoldOptions)
    (kv : String × VSpec) (rest dst : PackageMap) :
    pushSet latest opts (kv :: rest) dst
      = pushSet latest opts rest
          (match (computeTargetVersion latest kv.1 (some kv.2) opts).1 with
           | some t => setKV dst kv.1 t
           | none => dst) := rfl

theorem mem_keys_pushSet (latest : String → Option VSpec) (opts : ScaffoldOptions)
    (src : PackageMap) (dst : PackageMap) (q : String) :
    q ∈ keysOf (pushSet latest opts src dst)
      ↔ q ∈ keysOf dst
        ∨ ∃ fs, (q, fs) ∈ src
            ∧ (computeTargetVersion latest q (some fs) opts).1.isSome = true := by
  induction src generalizing dst with
  | nil =>
    simp only [pushSet, List.foldl_nil, List.not_mem_nil, false_and, exists_false, or_false]
  | cons kv rest ih =>
    obtain ⟨k, v⟩ := kv
    rw [pushSet_cons]
    cases htgt : (computeTargetVersion latest k (some v) opts).1 with
    | some t =>
      simp only [htgt]
      rw [ih]
      rw [mem_keysOf_setKV]
      constructor
      · rintro ((hdst | rfl) | ⟨fs, hfs, hsome⟩)
        · exact Or.inl hdst
        · exact Or.inr ⟨v, List.mem_cons_self _ _, by simp [htgt]⟩
        · exact Or.inr ⟨fs, List.mem_cons_of_mem _ hfs, hsome⟩
      · rintro (hdst | ⟨fs, hfs, hsome⟩)
        · exact Or.inl (Or.inl hdst)
        · rcases List.mem_cons.mp hfs with he | hrest
          · have : q = k := congrArg Prod.fst he
            exact Or.inl (Or.inr this)
          · exact Or.inr ⟨fs, hrest, hsome⟩
    | none =>
      simp only [htgt]
      rw [ih]
      constructor
      · rintro (hdst | ⟨fs, hfs, hsome⟩)
        · exact Or.inl hdst
        · exact Or.inr ⟨fs, List.mem_cons_of_mem _ hfs, hsome⟩
      · rintro (hdst | ⟨fs, hfs, hsome⟩)
        · exact Or.inl hdst
        · rcases List.mem_cons.mp hfs with he | hrest
          · obtain ⟨e1, e2⟩ := Prod.mk.injEq .. ▸ he
            subst e1
            subst e2
            rw [htgt] at hsome
            simp at hsome
          · exact Or.inr ⟨fs, hrest, hsome⟩

/-! ## Comparator and sort lemmas for `getLatestVersion` -/

theorem cmpParts_nil_eq (b : List Nat) :
    cmpParts b [] = if b.all (fun x => x == 0) then Ordering.eq else Ordering.gt := by
  induction b with
  | nil => rfl
  | cons x xs ih =>
    by_cases hx : x = 0
    · subst hx
      simp [cmpParts, ih, List.all_cons]
    · simp [cmpParts, hx, List.all_cons]

theorem cmpParts_nil_left (bs : List Nat) :
    cmpParts [] bs
      = if bs.all (fun b => b == 0) then Ordering.eq else Ordering.lt := rfl

theorem cmpParts_swap (a b : List Nat) : cmpParts b a = (cmpParts a b).swap := by
  induction a generalizing b with
  | nil =>
    rw [cmpParts_nil_eq, cmpParts_nil_left]
    by_cases h : (b.all fun x => x == 0) = true
    · rw [if_pos h, if_pos h]
      rfl
    · rw [if_neg h, if_neg h]
      rfl
  | cons x xs ih =>
    cases b with
    | nil =>
      rw [cmpParts_nil_left, cmpParts_nil_eq]
      by_cases h : ((x :: xs).all fun y => y == 0) = true
      · rw [if_pos h, if_pos h]
        rfl
      · rw [if_neg h, if_neg h]
        rfl
    | cons y ys =>
      simp only [cmpParts]
      rcases Nat.lt_trichotomy x y with h | h | h
      · simp [h, Nat.lt_asymm h, Nat.ne_of_lt h, Ordering.swap, Nat.not_lt_of_lt h]
      · subst h
        simp [Nat.lt_irrefl, ih ys]
      · simp [h, Nat.lt_asymm h, Ordering.swap, Nat.not_lt_of_lt h]

theorem cmpParts_refl (a : List Nat) : cmpParts a a = Ordering.eq := by
  induction a with
  | nil => rfl
  | cons x xs ih => simp [cmpParts, Nat.lt_irrefl, ih]

theorem cmpParts_allZero_left (b : List Nat) (hb : b.all (fun x => x == 0) = true)
    (c : List Nat) : cmpParts b c = cmpParts [] c := by
  induction b generalizing c with
  | nil => rfl
  | cons x xs ih =>
    simp only [List.all_cons, Bool.and_eq_true, beq_iff_eq] at hb
    obtain ⟨hx, hxs⟩ := hb
    subst hx
    cases c with
    | nil =>
      rw [cmpParts_nil_eq, cmpParts_nil_eq]
      simp [List.all_cons, hxs]
    | cons y ys =>
      simp only [cmpParts]
      by_cases hy : 0 < y
      · simp [hy, List.all_cons, Nat.not_lt_of_lt hy,
          show ¬(y < 0) from Nat.not_lt_zero y, Nat.ne_of_lt hy,
          show y ≠ 0 by omega]
      · have hy0 : y = 0 := by omega
        subst hy0
        simp only [Nat.lt_irrefl, if_false, List.all_cons, beq_self_eq_true,
          Bool.true_and]
        exact ih (by simpa using hxs) ys

theorem cmpParts_congr_left (a b : List Nat) (hab : cmpParts a b = Ordering.eq) :
    ∀ c, cmpParts b c = cmpParts a c := by
  induction a generalizing b with
  | nil =>
    intro c
    simp only [cmpParts] at hab
    by_cases h : b.all (fun x => x == 0)
    · exact cmpParts_allZero_left b h c
    · simp [h] at hab
  | cons x xs ih =>
    intro c
    cases b with
    | nil =>
      rw [cmpParts_nil_eq] at hab
      by_cases h : (x :: xs).all (fun y => y == 0)
      · exact (cmpParts_allZero_left (x :: xs) h c).symm
      · simp [h] at hab
    | cons y ys =>
      simp only [cmpParts] at hab
      by_cases h1 : x < y
      · simp [h1] at hab
      · by_cases h2 : y < x
        · simp [h1, h2] at hab
        · have exy : x = y := by omega
          subst exy
          rw [if_neg h1, if_neg h2] at hab
          cases c with
          | nil =>
            rw [cmpParts_nil_eq, cmpParts_nil_eq]
            simp only [List.all_cons]
            have := ih ys hab []
            rw [cmpParts_nil_eq, cmpParts_nil_eq] at this
            by_cases hys : ys.all (fun z => z == 0) <;>
              by_cases hxs : xs.all (fun z => z == 0) <;>
                simp [hys, hxs] at this ⊢
          | cons z zs =>
            simp only [cmpParts]
            by_cases h3 : x < z
            · simp [h3]
            · by_cases h4 : z < x
              · simp [h3, h4]
              · rw [if_neg h3, if_neg h4, if_neg h3, if_neg h4]
                exact ih ys hab zs

theorem cmpParts_lt_trans (a b c : List Nat) (hab : cmpParts a b = Ordering.lt)
    (hbc : cmpParts b c = Ordering.lt) : cmpParts a c = Ordering.lt := by
  induction a generalizing b c with
  | nil =>
    simp only [cmpParts]
    by_cases hc : c.all (fun x => x == 0)
    · exfalso
      have : cmpParts b c = cmpParts b [] := by
        have hswap : cmpParts c b = cmpParts [] b := cmpParts_allZero_left c hc b
        rw [cmpParts_swap, hswap, ← cmpParts_swap]
      rw [this, cmpParts_nil_eq] at hbc
      by_cases hb : b.all (fun x => x == 0) <;> simp [hb] at hbc
    · simp [hc]
  | cons x xs ih =>
    cases b with
    | nil =>
      rw [cmpParts_nil_eq] at hab
      by_cases h : (x :: xs).all (fun y => y == 0) <;> simp [h] at hab
    | cons y ys =>
      cases c with
      | nil =>
        rw [cmpParts_nil_eq] at hbc
        by_cases h : (y :: ys).all (fun z => z == 0) <;> simp [h] at hbc
      | cons z zs =>
        simp only [cmpParts] at hab hbc ⊢
        by_cases h1 : x < y
        · by_cases h2 : y < z
          · simp [show x < z by omega]
          · by_cases h3 : z < y
            · simp [h2, h3] at hbc
            · have : y = z := by omega
              subst this
              simp [h1]
        · by_cases h2 : y < x
          · simp [h1, h2] at hab
          · have exy : x = y := by omega
            subst exy
            rw [if_neg h1, if_neg h2] at hab
            by_cases h3 : x < z
            · simp [h3]
            · by_cases h4 : z < x
              · simp [h3, h4] at hbc
              · rw [if_neg h3, if_neg h4] at hbc ⊢
                exact ih ys zs hab hbc

theorem partsLe_refl (a : String) : partsLe a a = true := by
  unfold partsLe
  rw [cmpParts_refl]
  rfl

theorem partsLe_total (a b : String) : partsLe a b = true ∨ partsLe b a = true := by
  unfold partsLe
  cases h : cmpParts (numParts a) (numParts b) with
  | lt => exact Or.inl rfl
  | eq => exact Or.inl rfl
  | gt =>
    right
    rw [cmpParts_swap, h]
    rfl

theorem partsLe_trans (a b c : String) (hab : partsLe a b = true)
    (hbc : partsLe b c = true) : partsLe a c = true := by
  unfold partsLe at hab hbc ⊢
  cases h1 : cmpParts (numParts a) (numParts b) with
  | gt =>
    rw [h1] at hab
    exact absurd hab (by decide)
  | eq =>
    rw [← cmpParts_congr_left (numParts a) (numParts b) h1 (numParts c)]
    exact hbc
  | lt =>
    cases h2 : cmpParts (numParts b) (numParts c) with
    | gt =>
      rw [h2] at hbc
      exact absurd hbc (by decide)
    | lt =>
      rw [cmpParts_lt_trans _ _ _ h1 h2]
      rfl
    | eq =>
      have hsw := cmpParts_congr_left (numParts b) (numParts c) h2
      have key : cmpParts (numParts a) (numParts c) = Ordering.lt := by
        rw [cmpParts_swap (numParts c) (numParts a), hsw (numParts a),
          cmpParts_swap (numParts a) (numParts b), h1]
        rfl
      rw [key]
      rfl

theorem insertLe_perm {α : Type} (le : α → α → Bool) (x : α) (l : List α) :
    (insertLe le x l).Perm (x :: l) := by
  induction l with
  | nil => exact List.Perm.refl _
  | cons y ys ih =>
    unfold insertLe
    by_cases h : le x y
    · simp [h]
    · simp only [h, if_false]
      exact (List.Perm.cons y ih).trans (List.Perm.swap x y ys)

theorem sortLe_perm {α : Type} (le : α → α → Bool) (l : List α) :
    (sortLe le l).Perm l := by
  induction l with
  | nil => exact List.Perm.refl _
  | cons x xs ih =>
    exact (insertLe_perm le x (sortLe le xs)).trans (List.Perm.cons x ih)

theorem insertLe_pairwise {α : Type} (le : α → α → Bool)
    (htot : ∀ a b, le a b = true ∨ le b a = true)
    (htrans : ∀ a b c, le a b = true → le b c = true → le a c = true)
    (x : α) (l : List α) (hl : l.Pairwise (fun a b => le a b = true)) :
    (insertLe le x l).Pairwise (fun a b => le a b = true) := by
  induction l with
  | nil => simp [insertLe]
  | cons y ys ih =>
    rcases List.pairwise_cons.mp hl with ⟨hy, hys⟩
    by_cases h : le x y
    · simp only [insertLe, h, if_true]
      refine List.pairwise_cons.mpr ⟨?_, hl⟩
      intro z hz
      rcases List.mem_cons.mp hz with rfl | hz'
      · exact h
      · exact htrans x y z h (hy z hz')
    · simp only [insertLe, h, if_false]
      refine List.pairwise_cons.mpr ⟨?_, ih hys⟩
      intro z hz
      have hz' := (insertLe_perm le x ys).mem_iff.mp hz
      rcases List.mem_cons.mp hz' with rfl | hz''
      · rcases htot z y with hh | hh
        · exact absurd hh h
        · exact hh
      · exact hy z hz''

theorem sortLe_pairwise {α : Type} (le : α → α → Bool)
    (htot : ∀ a b, le a b = true ∨ le b a = true)
    (htrans : ∀ a b c, le a b = true → le b c = true → le a c = true)
    (l : List α) : (sortLe le l).Pairwise (fun a b => le a b = true) := by
  induction l with
  | nil => simp [sortLe]
  | cons x xs ih => exact insertLe_pairwise le htot htrans x (sortLe le xs) ih

theorem getLast?_mem_list {α : Type} (l : List α) (m : α) (h : l.getLast? = some m) :
    m ∈ l := by
  induction l with
  | nil => simp at h
  | cons x xs ih =>
    cases xs with
    | nil =>
      simp only [List.getLast?_singleton, Option.some_inj] at h
      simp [h]
    | cons y ys =>
      rw [List.getLast?_cons_cons] at h
      exact List.mem_cons_of_mem _ (ih h)

theorem pairwise_getLast_max {α : Type} (le : α → α → Bool) :
    ∀ (l : List α), l.Pairwise (fun a b => le a b = true) →
      ∀ m, l.getLast? = some m → ∀ v ∈ l, v = m ∨ le v m = true := by
  intro l
  induction l with
  | nil =>
    intro _ m hm
    simp at hm
  | cons x xs ih =>
    intro hp m hm v hv
    rcases List.pairwise_cons.mp hp with ⟨hx, hxs⟩
    cases xs with
    | nil =>
      simp only [List.getLast?_singleton, Option.some_inj] at hm
      rcases List.mem_cons.mp hv with rfl | hv'
      · exact Or.inl hm
      · simp at hv'
    | cons y ys =>
      rw [List.getLast?_cons_cons] at hm
      rcases List.mem_cons.mp hv with rfl | hv'
      · exact Or.inr (hx m (getLast?_mem_list _ m hm))
      · exact ih hxs m hm v hv'

/-! ## Sample data for concrete runs -/

def v100 : Ver := ⟨1, 0, 0, []⟩

def v200 : Ver := ⟨2, 0, 0, []⟩

def v900 : Ver := ⟨9, 0, 0, []⟩

def v140 : Ver := ⟨14, 0, 0, []⟩

def v180 : Ver := ⟨18, 0, 0, []⟩

def v190 : Ver := ⟨19, 0, 0, []⟩

def nmA : String := "pkg-a"

def nmB : String := "pkg-b"

def nmAp : String := "a-pkg"

def nmBp : String := "b-pkg"

def nmC : String := "c-pkg"

def nmOther : String := "other-pkg"

/-- Registry with a mutually incompatible peer cycle: `pkg-a@1.0.0` requires
peer `pkg-b@^2.0.0`; `pkg-b@^2.0.0` requires peer `pkg-a@^9.0.0`, which the
held `pkg-a@1.0.0` does not satisfy. -/
def regCycle : Registry :=
  { latest := fun _ => none,
    peers := fun n s =>
      if n == nmA && s == VSpec.exact v100 then some ⟨[(nmB, .caret v200)], []⟩
      else if n == nmB && s == VSpec.caret v200 then some ⟨[(nmA, .caret v900)], []⟩
      else none }

def depsCycle : PackageMap := [(nmA, .exact v100)]

/-- Registry where `b-pkg` requires missing peer `c-pkg@^1.0.0` and `a-pkg`
requires `c-pkg@^2.0.0`. -/
def regOrd : Registry :=
  { latest := fun _ => none,
    peers := fun n _ =>
      if n == nmBp then some ⟨[(nmC, .caret v100)], []⟩
      else if n == nmAp then some ⟨[(nmC, .caret v200)], []⟩
      else none }

def depsOrd : PackageMap := [(nmBp, .exact v100), (nmAp, .exact v100)]

def latestNone : String → Option VSpec := fun _ => none

def optsAll : ScaffoldOptions := ⟨none, some .all⟩

def opts0 : ScaffoldOptions := ⟨none, none⟩

def optsFw : ScaffoldOptions := ⟨some (.exact v180), none⟩

def latestScn : String → Option VSpec :=
  fun n => if n == angularCliName then some (.exact v190) else none

def regPlain : Registry :=
  { latest := fun n => if n == angularCliName then some (.exact v190) else none,
    peers := fun _ _ => some ⟨[], []⟩ }

def depsPlain : PackageMap := [(nmOther, .exact v100)]

def regN8 : NpmRegistry := ⟨fun _ => some [], fun _ _ => some ⟨[], []⟩⟩

def npmSt0 : NpmState := ⟨[], []⟩

def verS : String := "1.0.0"

/-! ## Claim C1 -/

/-- C1 counterexample: the claim says the resolver repeats rounds after a
changing round until a round changes nothing (Converged) or `maxRounds` is
exceeded (every still-changing package marked Unresolved).  On the cyclic
registry `regCycle`, the code's single pass changes the manifest (it adds
`pkg-b`, and its only decision is that plain addition — nothing is ever
marked with any cycle/Unresolved reason), yet its output is not a fixed
point: running the pass again on its own output changes `pkg-a`.  So no
second round was run and the run ended neither converged nor
cycle-marked. -/
theorem c1_counterexample :
    (enforcePeerCompatibility regCycle depsCycle []).upgraded
        = [⟨nmB, none, VSpec.caret v200, reasonAddedPeer nmA⟩]
      ∧ (enforcePeerCompatibility regCycle
            (enforcePeerCompatibility regCycle depsCycle []).deps
            (enforcePeerCompatibility regCycle depsCycle []).devDeps).deps
          ≠ (enforcePeerCompatibility regCycle depsCycle []).deps := by
  decide

/-- C1 (amended): `enforcePeerCompatibility` performs exactly one pass over
the snapshot `{...deps, ...devDeps}` taken at entry — every decision it
records names a requirer from that snapshot (packages added during the pass
are never themselves queried), it has no round counter, no `maxRounds`
bound, no Converged/ExceededRounds states and no Unresolved markings, and
its output need not be a fixed point. -/
theorem c1_single_pass (reg : Registry) (d dd : PackageMap) (rec : Decision)
    (hmem : rec ∈ (enforcePeerCompatibility reg d dd).upgraded) :
    ∃ pkg spec, (pkg, spec) ∈ mergeMaps d dd
      ∧ (rec.reason = reasonAddedPeer pkg ∨ rec.reason = reasonAlignPeer pkg) :=
  enforce_upgraded_from_universe reg d dd rec hmem

/-- C1 witness: instantiation of `c1_single_pass` on the cyclic registry. -/
theorem c1_single_pass_witness :
    ∃ pkg spec, (pkg, spec) ∈ mergeMaps depsCycle []
      ∧ ((⟨nmB, none, VSpec.caret v200, reasonAddedPeer nmA⟩ : Decision).reason
            = reasonAddedPeer pkg
        ∨ (⟨nmB, none, VSpec.caret v200, reasonAddedPeer nmA⟩ : Decision).reason
            = reasonAlignPeer pkg) :=
  c1_single_pass regCycle depsCycle [] ⟨nmB, none, VSpec.caret v200, reasonAddedPeer nmA⟩
    (by decide)

/-! ## Claim C2 -/

/-- C2 counterexample: the claim requires processing ordered alphabetically
by requiring package, and that no compatibility test observes a mutation of
the same round.  On `regOrd` with insertion order `[b-pkg, a-pkg]`, the log
shows `b-pkg`'s requirement processed before `a-pkg`'s (insertion order, not
alphabetical), and `a-pkg`'s compatibility test for `c-pkg` observed the spec
`^1.0.0` — a value absent from the input manifest, written by `b-pkg`'s
requirement earlier in the same (single) round. -/
theorem c2_counterexample :
    (enforcePeerCompatibility regOrd depsOrd []).upgraded
        = [⟨nmC, none, VSpec.caret v100, reasonAddedPeer nmBp⟩,
           ⟨nmC, some (VSpec.caret v100), VSpec.caret v200, reasonAlignPeer nmAp⟩]
      ∧ lookupKV depsOrd nmC = none
      ∧ depsOrd.all (fun kv => kv.2 != VSpec.caret v100) = true := by
  decide

/-- C2 (amended): within its single pass the resolver processes requirements
in the snapshot's insertion order — the snapshot `{...deps, ...devDeps}`
lists the dependencies section's keys first (in manifest order, with a
shared key keeping the dependencies position but the devDependencies value)
followed by the devDependencies-only keys — and each mutation is applied
immediately, the state being threaded through the fold, so a later
compatibility test in the pass observes earlier mutations. -/
theorem c2_insertion_order (reg : Registry) (d dd : PackageMap)
    (hnd : (keysOf dd).Nodup) :
    enforcePeerCompatibility reg d dd
        = (mergeMaps d dd).foldl (fun st kv => processPkg reg st kv.1 kv.2) ⟨d, dd, []⟩
      ∧ keysOf (mergeMaps d dd)
          = keysOf d ++ (keysOf dd).filter (fun k => !containsKV d k)
      ∧ ∀ q, lookupKV (mergeMaps d dd) q
          = ((lookupKV dd q).orElse fun _ => lookupKV d q) :=
  ⟨rfl, keysOf_mergeMaps dd d hnd, fun q => lookupKV_mergeMaps dd d q hnd⟩

/-- C2 witness: instantiation of `c2_insertion_order` on a concrete manifest
with one devDependencies-only key, the lookup clause evaluated at that key. -/
theorem c2_insertion_order_witness :
    enforcePeerCompatibility regOrd depsOrd [(nmC, VSpec.exact v100)]
        = (mergeMaps depsOrd [(nmC, VSpec.exact v100)]).foldl
            (fun st kv => processPkg regOrd st kv.1 kv.2)
            ⟨depsOrd, [(nmC, VSpec.exact v100)], []⟩
      ∧ keysOf (mergeMaps depsOrd [(nmC, VSpec.exact v100)])
          = keysOf depsOrd
            ++ (keysOf [(nmC, VSpec.exact v100)]).filter (fun k => !containsKV depsOrd k)
      ∧ lookupKV (mergeMaps depsOrd [(nmC, VSpec.exact v100)]) nmC
          = ((lookupKV [(nmC, VSpec.exact v100)] nmC).orElse fun _ => lookupKV depsOrd nmC) :=
  ⟨(c2_insertion_order regOrd depsOrd [(nmC, VSpec.exact v100)] (by decide)).1,
   (c2_insertion_order regOrd depsOrd [(nmC, VSpec.exact v100)] (by decide)).2.1,
   (c2_insertion_order regOrd depsOrd [(nmC, VSpec.exact v100)] (by decide)).2.2 nmC⟩

/-! ## Claim C3 -/

/-- C3 counterexample: the claim says a failed registry lookup leaves the
package at its current spec with reason "lookup failed, kept original".  In
the code, under strategy `all` with a registry returning nothing for
`other-pkg`, `computeTargetVersion` returns `to = undefined` with the rule's
normal reason, and `pushSet` then drops the package from the output manifest
entirely — it is not kept, and no such reason string exists. -/
theorem c3_counterexample :
    computeTargetVersion latestNone nmOther (some (VSpec.exact v100)) optsAll
        = (none, reasonUpgradeAll)
      ∧ pushSet latestNone optsAll [(nmOther, VSpec.exact v100)] [] = []
      ∧ reasonUpgradeAll ≠ ("lookup failed, kept original") := by
  decide

/-- C3 (amended): when a lookup required by the planning rules returns no
result, the planned target is `undefined` (the reason stays the rule's
normal reason, e.g. "upgrade all (latest)"), and `pushSet` omits the package
from the output manifest instead of keeping its original spec; the failure
is non-fatal and package-scoped (a key is in the output iff some source
entry for it computed a defined target). -/
theorem c3_lookup_failure_drops :
    (∀ (latest : String → Option VSpec) (opts : ScaffoldOptions)
        (name : String) (fromSpec : Option VSpec),
        isAngularPackage name = false →
        opts.upgradeStrategy = some UpgradeStrategy.all →
        latest name = none →
        computeTargetVersion latest name fromSpec opts = (none, reasonUpgradeAll))
  ∧ (∀ (latest : String → Option VSpec) (opts : ScaffoldOptions)
        (src : PackageMap) (q : String),
        q ∈ keysOf (pushSet latest opts src [])
          ↔ ∃ fs, (q, fs) ∈ src
              ∧ (computeTargetVersion latest q (some fs) opts).1.isSome = true) := by
  constructor
  · intro latest opts name fromSpec hang hstrat hlat
    simp [computeTargetVersion, hang, hstrat, hlat]
  · intro latest opts src q
    rw [mem_keys_pushSet]
    simp [keysOf]

/-- C3 witness: instantiations of both parts of `c3_lookup_failure_drops` at
the concrete failing lookup. -/
theorem c3_lookup_failure_drops_witness :
    computeTargetVersion latestNone nmOther (some (VSpec.exact v100)) optsAll
        = (none, reasonUpgradeAll)
      ∧ (nmOther ∈ keysOf (pushSet latestNone optsAll [(nmOther, VSpec.exact v100)] [])
          ↔ ∃ fs, (nmOther, fs) ∈ [(nmOther, VSpec.exact v100)]
              ∧ (computeTargetVersion latestNone nmOther (some fs) optsAll).1.isSome = true) :=
  ⟨c3_lookup_failure_drops.1 latestNone optsAll nmOther (some (VSpec.exact v100))
      (by decide) (by decide) rfl,
   c3_lookup_failure_drops.2 latestNone optsAll [(nmOther, VSpec.exact v100)] nmOther⟩

/-! ## Claim C4 -/

/-- C4: compatibility between a held spec and a peer range is tested as
non-empty intersection of the denoted version sets (pre-release values
included) when both are valid ranges — for a held exact version this is
exactly containment of that version in the peer range, an exact version
being itself a valid range — and an incompatible present peer is overwritten
with the peer range, recording an Upgraded decision with `from` the old spec
and `to` the range, after which the selected spec is the triggering range
itself (hence satisfies it); a compatible peer is left untouched. -/
theorem c4_compat_semantics :
    (∀ (v : Ver) (r : VSpec), isValidRange r = true →
        (compatTest (VSpec.exact v) r = true ↔ memIncPre r v = true))
  ∧ (∀ (a b : VSpec), isValidRange a = true → isValidRange b = true →
        (compatTest a b = true ↔ ∃ u, memIncPre a u = true ∧ memIncPre b u = true))
  ∧ (∀ (st : PeerState) (pkg peerName : String) (peerRange haveSpec : VSpec)
        (optional : Bool), selectedSpec st peerName = some haveSpec →
        (compatTest haveSpec peerRange = true →
          applyPeer st pkg peerName peerRange optional = st)
      ∧ (compatTest haveSpec peerRange = false →
          (applyPeer st pkg peerName peerRange optional).upgraded
              = st.upgraded
                ++ [⟨peerName, some haveSpec, peerRange, reasonAlignPeer pkg⟩]
            ∧ selectedSpec (applyPeer st pkg peerName peerRange optional) peerName
              = some peerRange)) := by
  have hboth : ∀ (a b : VSpec), isValidRange a = true → isValidRange b = true →
      (compatTest a b = true ↔ ∃ u, memIncPre a u = true ∧ memIncPre b u = true) := by
    intro a b ha hb
    unfold compatTest
    rw [ha, hb]
    simp only [Bool.and_self, if_true]
    exact intersects_iff_exists a b ha hb
  refine ⟨?_, hboth, ?_⟩
  · intro v r hr
    rw [hboth (VSpec.exact v) r rfl hr]
    constructor
    · rintro ⟨u, hu, hru⟩
      simp only [memIncPre, decide_eq_true_eq] at hu
      exact hu ▸ hru
    · intro hrv
      exact ⟨v, by simp [memIncPre], hrv⟩
  · intro st pkg peerName peerRange haveSpec optional hsel
    unfold applyPeer
    rw [hsel]
    constructor
    · intro hcompat
      simp [hcompat]
    · intro hcompat
      simp only [hcompat, Bool.false_eq_true, if_false]
      refine ⟨trivial, ?_⟩
      unfold selectedSpec
      by_cases hdeps : containsKV st.deps peerName
      · simp [hdeps, lookupKV_setKV]
      · have hnone : lookupKV st.deps peerName = none := by
          unfold containsKV at hdeps
          exact Option.not_isSome_iff_eq_none.mp (by simpa using hdeps)
        simp [hdeps, hnone, lookupKV_setKV, Option.orElse]

/-- C4 witness: instantiations of `c4_compat_semantics` — containment
semantics for a held exact version against `^2.0.0`, intersection semantics
for `^1.0.0` against `>=1.0.0`, and the overwrite behaviour on a concrete
incompatible state. -/
theorem c4_compat_semantics_witness :
    (compatTest (VSpec.exact v100) (VSpec.caret v200) = true
        ↔ memIncPre (VSpec.caret v200) v100 = true)
      ∧ (compatTest (VSpec.caret v100) (VSpec.gte v100) = true
          ↔ ∃ u, memIncPre (VSpec.caret v100) u = true
              ∧ memIncPre (VSpec.gte v100) u = true)
      ∧ ((applyPeer ⟨[(nmC, VSpec.caret v100)], [], []⟩ nmAp nmC (VSpec.caret v200)
            false).upgraded
          = [] ++ [⟨nmC, some (VSpec.caret v100), VSpec.caret v200, reasonAlignPeer nmAp⟩]) :=
  ⟨c4_compat_semantics.1 v100 (VSpec.caret v200) rfl,
   c4_compat_semantics.2.1 (VSpec.caret v100) (VSpec.gte v100) rfl rfl,
   ((c4_compat_semantics.2.2 ⟨[(nmC, VSpec.caret v100)], [], []⟩ nmAp nmC
      (VSpec.caret v200) (VSpec.caret v100) false (by decide)).2 (by decide)).1⟩

/-! ## Claim C5 -/

/-- C5: a peer requirement whose peer is absent from both manifest sections
is, when mandatory, inserted with spec equal to the peer range together with
an added-decision record (`fromSpec = none`), and, when optional, ignored —
manifest and decision log unchanged. -/
theorem c5_missing_peer (st : PeerState) (pkg peerName : String) (peerRange : VSpec)
    (habs : selectedSpec st peerName = none) :
    applyPeer st pkg peerName peerRange false
        = { st with
              deps := setKV st.deps peerName peerRange,
              upgraded := st.upgraded
                ++ [⟨peerName, none, peerRange, reasonAddedPeer pkg⟩] }
      ∧ applyPeer st pkg peerName peerRange true = st := by
  unfold applyPeer
  rw [habs]
  exact ⟨rfl, rfl⟩

/-- C5 witness: instantiation of `c5_missing_peer` on an empty manifest. -/
theorem c5_missing_peer_witness :
    applyPeer ⟨[], [], []⟩ nmA nmB (VSpec.caret v200) false
        = { deps := setKV [] nmB (VSpec.caret v200), devDeps := [],
            upgraded := [] ++ [⟨nmB, none, VSpec.caret v200, reasonAddedPeer nmA⟩] }
      ∧ applyPeer ⟨[], [], []⟩ nmA nmB (VSpec.caret v200) true = ⟨[], [], []⟩ :=
  c5_missing_peer ⟨[], [], []⟩ nmA nmB (VSpec.caret v200) (by decide)

/-! ## Claim C6 -/

/-- C6 counterexample: the claim restricts rule 1 (explicit target) to the
core framework's *primary* package and gives the companion CLI the
registry's latest stable version (here `19.0.0`) with it, and quotes the
reason "explicit target version".  The code applies the explicit target to
*every* `@angular/`-scoped package: with an explicit target `18.0.0` set,
`@angular/cli` receives `18.0.0` — not the registry latest — and the reason
string is "match targetAngularVersion". -/
theorem c6_counterexample :
    computeTargetVersion latestScn angularCliName (some (VSpec.exact v140)) optsFw
        = (some (VSpec.exact v180), reasonMatchTarget)
      ∧ latestScn angularCliName = some (VSpec.exact v190)
      ∧ reasonMatchTarget ≠ ("explicit target version") := by
  decide

/-- C6 (amended): the planning rules apply in priority order with the first
match winning — (1) any `@angular/`-scoped package with an explicit target
set gets that target, reason "match targetAngularVersion"; (2) otherwise
`@angular/cli` gets the registry's latest, reason "align with Angular CLI
latest"; (3) a non-Angular package under strategy `all` gets the registry's
latest, reason "upgrade all (latest)"; (4) a non-Angular package otherwise
keeps its current spec, reason "keep (angularOnly strategy)"; and in the
concrete scenario `@angular/core@14.0.0` becomes `18.0.0` by rule 1 while
`other-pkg@1.0.0` is kept by rule 4. -/
theorem c6_target_rules :
    (∀ (latest : String → Option VSpec) (name : String) (fromSpec : Option VSpec)
        (opts : ScaffoldOptions) (t : VSpec),
        startsWithL angularScope name = true →
        opts.targetAngularVersion = some t →
        computeTargetVersion latest name fromSpec opts = (some t, reasonMatchTarget))
  ∧ (∀ (latest : String → Option VSpec) (fromSpec : Option VSpec)
        (opts : ScaffoldOptions),
        opts.targetAngularVersion = none →
        computeTargetVersion latest angularCliName fromSpec opts
          = (latest angularCliName, reasonAlignCli))
  ∧ (∀ (latest : String → Option VSpec) (name : String) (fromSpec : Option VSpec)
        (opts : ScaffoldOptions),
        isAngularPackage name = false →
        opts.upgradeStrategy = some UpgradeStrategy.all →
        computeTargetVersion latest name fromSpec opts = (latest name, reasonUpgradeAll))
  ∧ (∀ (latest : String → Option VSpec) (name : String) (fromSpec : Option VSpec)
        (opts : ScaffoldOptions),
        isAngularPackage name = false →
        opts.upgradeStrategy.getD UpgradeStrategy.angularOnly = UpgradeStrategy.angularOnly →
        computeTargetVersion latest name fromSpec opts = (fromSpec, reasonKeep))
  ∧ computeTargetVersion latestScn angularCoreName (some (VSpec.exact v140)) optsFw
      = (some (VSpec.exact v180), reasonMatchTarget)
  ∧ computeTargetVersion latestScn nmOther (some (VSpec.exact v100)) optsFw
      = (some (VSpec.exact v100), reasonKeep) := by
  refine ⟨?_, ?_, ?_, ?_, by decide, by decide⟩
  · intro latest name fromSpec opts t hpre htgt
    have hang : isAngularPackage name = true := by
      have hpre' : startsWithL ("@angular/") name = true := by
        simpa [angularScope] using hpre
      simp [isAngularPackage, ANGULAR_SCOPES, hpre']
    simp [computeTargetVersion, hang, hpre, htgt]
  · intro latest fromSpec opts htgt
    simp [computeTargetVersion, htgt, isAngularPackage, ANGULAR_SCOPES,
      angularCliName, angularScope, startsWithL]
  · intro latest name fromSpec opts hang hstrat
    simp [computeTargetVersion, hang, hstrat]
  · intro latest name fromSpec opts hang hstrat
    simp [computeTargetVersion, hang, hstrat]

/-- C6 witness: rule 1 of `c6_target_rules` instantiated at `@angular/cli`
under an explicit target — the registry is never consulted. -/
theorem c6_target_rules_witness :
    computeTargetVersion latestNone angularCliName (some (VSpec.exact v140)) optsFw
      = (some (VSpec.exact v180), reasonMatchTarget) :=
  c6_target_rules.1 latestNone angularCliName (some (VSpec.exact v140)) optsFw
    (VSpec.exact v180) (by decide) rfl

/-! ## Claim C7 -/

/-- C7: `getLatestVersion` filters out every candidate containing a hyphen
or a pre-release marker and returns a greatest remaining version under the
component-wise numeric comparator (`partsLe`, missing components reading as
`0`): whenever it returns a version, that version is one of the stable
candidates and is `partsLe`-above all of them; on
`["2.0.0","2.1.0-beta.1","2.1.0"]` it returns `"2.1.0"`, and on
`["9.0.0","10.0.0"]` it returns `"10.0.0"` (numeric, not lexicographic,
comparison). -/
theorem c7_latest_stable :
    (∀ (versions : List String) (m : String),
        selectLatestStable versions = some m →
        m ∈ versions.filter isStable
          ∧ ∀ v ∈ versions.filter isStable, partsLe v m = true)
  ∧ selectLatestStable [("2.0.0"), ("2.1.0-beta.1"), ("2.1.0")] = some ("2.1.0")
  ∧ selectLatestStable [("9.0.0"), ("10.0.0")] = some ("10.0.0") := by
  refine ⟨?_, by decide, by decide⟩
  intro versions m hm
  unfold selectLatestStable at hm
  by_cases hlen : (versions.filter isStable).length > 0
  · rw [if_pos hlen] at hm
    have hperm := sortLe_perm partsLe (versions.filter isStable)
    have hmem : m ∈ sortLe partsLe (versions.filter isStable) :=
      getLast?_mem_list _ m hm
    refine ⟨hperm.mem_iff.mp hmem, ?_⟩
    intro v hv
    have hv' : v ∈ sortLe partsLe (versions.filter isStable) :=
      hperm.mem_iff.mpr hv
    rcases pairwise_getLast_max partsLe _
        (sortLe_pairwise partsLe partsLe_total partsLe_trans _) m hm v hv' with rfl | hle
    · exact partsLe_refl v
    · exact hle
  · rw [if_neg hlen] at hm
    exact absurd hm (by simp)

/-- C7 witness: instantiation of `c7_latest_stable` on the concrete
candidate list with the pre-release, the bound evaluated at `"2.0.0"`. -/
theorem c7_latest_stable_witness :
    ("2.1.0" : String) ∈ [("2.0.0"), ("2.1.0-beta.1"), ("2.1.0")].filter isStable
      ∧ partsLe ("2.0.0") ("2.1.0") = true :=
  ⟨(c7_latest_stable.1 [("2.0.0"), ("2.1.0-beta.1"), ("2.1.0")] ("2.1.0") (by decide)).1,
   (c7_latest_stable.1 [("2.0.0"), ("2.1.0-beta.1"), ("2.1.0")] ("2.1.0") (by decide)).2
     ("2.0.0") (by decide)⟩

/-! ## Claim C8 -/

/-- C8 counterexample: the claim says both registry calls are cached per run
so that a repeated call with the same key performs no new registry query.
`getPeerDeps` has no cache: a second call with the identical
`(name, version)` key issues a second `npm view` query (the query log grows
from one entry to two). -/
theorem c8_counterexample :
    ((getPeerDeps regN8 nmA verS (getPeerDeps regN8 nmA verS npmSt0).2).2).queries
        ≠ ((getPeerDeps regN8 nmA verS npmSt0).2).queries
      ∧ ((getPeerDeps regN8 nmA verS (getPeerDeps regN8 nmA verS npmSt0).2).2).queries.length
          = 2 := by
  decide

/-- C8 (amended): only `getLatestVersion` is cached — under key `name`, the
entry written at most once and never evicted, so a repeated call returns the
stored value (even a recorded failure) and leaves the state, including the
query log, completely unchanged; `getPeerDeps` is uncached and every call
appends exactly one new registry query. -/
theorem c8_caching :
    (∀ (reg : NpmRegistry) (name : String) (st : NpmState),
        (getLatestVersion reg name (getLatestVersion reg name st).2).1
            = (getLatestVersion reg name st).1
          ∧ (getLatestVersion reg name (getLatestVersion reg name st).2).2
            = (getLatestVersion reg name st).2)
  ∧ (∀ (reg : NpmRegistry) (name version : String) (st : NpmState),
        (getPeerDeps reg name version st).2.queries
          = st.queries ++ [name ++ ("@") ++ version]) := by
  constructor
  · intro reg name st
    unfold getLatestVersion
    cases hcache : lookupKV st.latestCache name with
    | some cached => simp [hcache]
    | none => simp [hcache, lookupKV_setKV]
  · intro reg name version st
    rfl

/-! ## Claim C9 -/

/-- C9 counterexample: the claim requires a one-to-one correspondence
between the final manifest and the decision log.  On a plain run (default
strategy, no explicit target, registry with no peers), both `other-pkg`
(kept from the source) and `@angular/cli` (inserted into devDependencies)
are present in the final manifest while the decision log — `kept`,
`upgraded` and `skipped` together — is completely empty, so two final
packages have no decision. -/
theorem c9_counterexample :
    lookupKV (buildPlan regPlain opts0 depsPlain []).deps nmOther
        = some (VSpec.exact v100)
      ∧ containsKV (buildPlan regPlain opts0 depsPlain []).devDeps angularCliName = true
      ∧ (buildPlan regPlain opts0 depsPlain []).kept = []
      ∧ (buildPlan regPlain opts0 depsPlain []).upgraded = []
      ∧ (buildPlan regPlain opts0 depsPlain []).skipped = [] := by
  decide

/-- C9 (amended): the decision log of a plan records only the
peer-compatibility actions — `kept` and `skipped` are always empty, and
every `upgraded` record carries a peer-addition or peer-alignment reason —
so packages planned by `computeTargetVersion` (kept or retargeted) and the
inserted `@angular/cli` appear in the final manifest with no decision at
all. -/
theorem c9_decision_log (reg : Registry) (opts : ScaffoldOptions)
    (oldDeps oldDevDeps : PackageMap) :
    (buildPlan reg opts oldDeps oldDevDeps).kept = []
      ∧ (buildPlan reg opts oldDeps oldDevDeps).skipped = []
      ∧ ∀ rec ∈ (buildPlan reg opts oldDeps oldDevDeps).upgraded,
          ∃ pkg, rec.reason = reasonAddedPeer pkg ∨ rec.reason = reasonAlignPeer pkg := by
  refine ⟨rfl, rfl, ?_⟩
  intro rec hmem
  obtain ⟨pkg, spec, _, hr⟩ := enforce_upgraded_from_universe _ _ _ rec hmem
  exact ⟨pkg, hr⟩

/-- C9 witness: instantiation of `c9_decision_log` on a run whose peer pass
records two decisions, the reason clause evaluated at the first record. -/
theorem c9_decision_log_witness :
    (buildPlan regOrd opts0 depsOrd []).kept = []
      ∧ (buildPlan regOrd opts0 depsOrd []).skipped = []
      ∧ ∃ pkg, (⟨nmC, none, VSpec.caret v100, reasonAddedPeer nmBp⟩ : Decision).reason
            = reasonAddedPeer pkg
          ∨ (⟨nmC, none, VSpec.caret v100, reasonAddedPeer nmBp⟩ : Decision).reason
            = reasonAlignPeer pkg :=
  ⟨(c9_decision_log regOrd opts0 depsOrd []).1,
   (c9_decision_log regOrd opts0 depsOrd []).2.1,
   (c9_decision_log regOrd opts0 depsOrd []).2.2
     ⟨nmC, none, VSpec.caret v100, reasonAddedPeer nmBp⟩ (by decide)⟩

/-! ## Claim C10 -/

/-- C10: a missing mandatory peer is always inserted into the dependencies
section (whatever section its requirer came from), while an incompatible
present peer is overwritten in the section that holds it — the dependencies
section when the name is in dependencies (even if also in devDependencies,
both the read and the write preferring dependencies), the devDependencies
section otherwise. -/
theorem c10_insertion_section (st : PeerState) (pkg peerName : String)
    (peerRange haveSpec : VSpec) (optional : Bool) :
    (selectedSpec st peerName = none →
        (applyPeer st pkg peerName peerRange false).deps
            = setKV st.deps peerName peerRange
          ∧ (applyPeer st pkg peerName peerRange false).devDeps = st.devDeps)
  ∧ (selectedSpec st peerName = some haveSpec →
      compatTest haveSpec peerRange = false →
        (containsKV st.deps peerName = true →
            (applyPeer st pkg peerName peerRange optional).deps
                = setKV st.deps peerName peerRange
              ∧ (applyPeer st pkg peerName peerRange optional).devDeps = st.devDeps)
      ∧ (containsKV st.deps peerName = false →
            (applyPeer st pkg peerName peerRange optional).deps = st.deps
          ∧ (applyPeer st pkg peerName peerRange optional).devDeps
              = setKV st.devDeps peerName peerRange)) := by
  constructor
  · intro habs
    unfold applyPeer
    rw [habs]
    exact ⟨rfl, rfl⟩
  · intro hsel hcompat
    unfold applyPeer
    rw [hsel]
    simp only [hcompat, Bool.false_eq_true, if_false]
    constructor
    · intro hdeps
      simp [hdeps]
    · intro hdeps
      simp [hdeps]

/-- C10 witness: instantiation of `c10_insertion_section` on a state holding
the peer in devDependencies only — the overwrite lands in devDependencies
and the dependencies section is untouched. -/
theorem c10_insertion_section_witness :
    (applyPeer ⟨[], [(nmC, VSpec.caret v100)], []⟩ nmAp nmC (VSpec.caret v200)
        false).deps = []
      ∧ (applyPeer ⟨[], [(nmC, VSpec.caret v100)], []⟩ nmAp nmC (VSpec.caret v200)
          false).devDeps = setKV [(nmC, VSpec.caret v100)] nmC (VSpec.caret v200) :=
  ((c10_insertion_section ⟨[], [(nmC, VSpec.caret v100)], []⟩ nmAp nmC
      (VSpec.caret v200) (VSpec.caret v100) false).2 (by decide) (by decide)).2
    (by decide)
